import Mathlib

/-!
Verification of the gitmoji-commit message codec, change classifier and
commit dispatcher.  Strings are embedded as lists of characters (`Str`);
the two regular expressions of the codec are embedded as explicit
maximal-munch matching functions, and the JavaScript collaborators
(version control) are passed in as explicit parameters.
-/

namespace Gitmoji

/-- Strings of the embedded program, as lists of characters. -/
abbrev Str := List Char

/-- Characters matched by the host regex class `\s` (also the characters
stripped by the host `trim`): the six ASCII whitespace characters plus
NBSP, OGHAM SPACE MARK, the U+2000..U+200A spaces, LINE SEPARATOR,
PARAGRAPH SEPARATOR, NARROW NO-BREAK SPACE, MEDIUM MATHEMATICAL SPACE,
IDEOGRAPHIC SPACE and the BOM. -/
def jsSpace (c : Char) : Bool :=
  c == ' ' || c == '\t' || c == '\n' || c == '\r' || c == '\x0b' || c == '\x0c' ||
  c == '\u00a0' || c == '\u1680' || ('\u2000' ≤ c && c ≤ '\u200a') ||
  c == '\u2028' || c == '\u2029' || c == '\u202f' || c == '\u205f' ||
  c == '\u3000' || c == '\ufeff'

/-- Line terminators, which the host regex `.` (without the `s` flag)
refuses to match: LF, CR, LINE SEPARATOR and PARAGRAPH SEPARATOR. -/
def lineTerm (c : Char) : Bool :=
  c == '\n' || c == '\r' || c == '\u2028' || c == '\u2029'

/-- Lowercase ASCII letter, the character class `[a-z]` of the header regex. -/
def isLowerAZ (c : Char) : Bool := 'a' ≤ c && c ≤ 'z'

/-- ASCII lowering of a string, modelling the host `toLowerCase`
on the ASCII file names and titles the program handles. -/
def lowerStr (s : Str) : Str := s.map Char.toLower

/-- Model of the host `String.prototype.trim`: strip leading and trailing
whitespace. -/
def jsTrim (s : Str) : Str :=
  ((s.dropWhile jsSpace).reverse.dropWhile jsSpace).reverse

/-- Model of the host `String.prototype.split(sep)` for a one-character
separator: always returns a non-empty list of separator-free segments. -/
def splitOnChar (sep : Char) : Str → List Str
  | [] => [[]]
  | c :: cs =>
    if c = sep then [] :: splitOnChar sep cs
    else
      match splitOnChar sep cs with
      | [] => [[c]]
      | l :: ls => (c :: l) :: ls

/-- Model of `Array.prototype.join(sep)` for a one-character separator. -/
def joinSep (sep : Char) : List Str → Str
  | [] => []
  | [l] => l
  | l :: ls => l ++ sep :: joinSep sep ls

/-- Decimal rendering of a number interpolated into a template string. -/
def natStr (n : Nat) : Str := (Nat.repr n).data

/-- The closed set of commit type identifiers (`src/types.ts`). -/
inductive CommitType
  | feat | fix | docs | style | refactor | perf | test | build | ci | chore
  | revert | security | deprecate | breaking | i18n | a11y | deps
  deriving DecidableEq, Fintype

/-- The identifier string of a commit type, as written in the registry. -/
def commitTypeName : CommitType → Str
  | .feat => "feat".data
  | .fix => "fix".data
  | .docs => "docs".data
  | .style => "style".data
  | .refactor => "refactor".data
  | .perf => "perf".data
  | .test => "test".data
  | .build => "build".data
  | .ci => "ci".data
  | .chore => "chore".data
  | .revert => "revert".data
  | .security => "security".data
  | .deprecate => "deprecate".data
  | .breaking => "breaking".data
  | .i18n => "i18n".data
  | .a11y => "a11y".data
  | .deps => "deps".data

/-- Information associated with a commit type in the registry. -/
structure CommitTypeInfo where
  emoji : Str
  title : Str
  description : Str
  deriving DecidableEq

/-- The immutable type registry `COMMIT_TYPES` (`src/types.ts`). -/
def COMMIT_TYPES : CommitType → CommitTypeInfo
  | .feat => ⟨"✨".data, "Features".data, "A new feature".data⟩
  | .fix => ⟨"🐛".data, "Bug Fixes".data, "A bug fix".data⟩
  | .docs => ⟨"📝".data, "Documentation".data, "Documentation only changes".data⟩
  | .style => ⟨"🎨".data, "Styles".data,
      "Changes that do not affect code meaning (whitespace, formatting, missing semi-colons, etc.)".data⟩
  | .refactor => ⟨"♻️".data, "Code Refactoring".data,
      "A code change that neither fixes a bug nor adds a feature".data⟩
  | .perf => ⟨"⚡".data, "Performance Improvements".data,
      "A code change that improves performance".data⟩
  | .test => ⟨"🧪".data, "Tests".data,
      "Adding missing tests or correcting existing tests".data⟩
  | .build => ⟨"📦".data, "Builds".data,
      "Changes that affect the build system or external dependencies (npm, maven, gradle, etc.)".data⟩
  | .ci => ⟨"👷".data, "Continuous Integration".data,
      "Changes to CI configuration files and scripts (GitHub Actions, GitLab CI, Jenkins, etc.)".data⟩
  | .chore => ⟨"🔧".data, "Chores".data,
      "Other changes that don't modify src or test files (maintenance tasks, config updates, etc.)".data⟩
  | .revert => ⟨"⏪".data, "Reverts".data, "Reverts a previous commit".data⟩
  | .security => ⟨"🔒".data, "Security Fixes".data,
      "Security vulnerability fixes or improvements".data⟩
  | .deprecate => ⟨"⚠️".data, "Deprecations".data,
      "Mark features/APIs as deprecated".data⟩
  | .breaking => ⟨"💥".data, "Breaking Changes".data,
      "Changes that break backward compatibility".data⟩
  | .i18n => ⟨"🌐".data, "Internationalization".data,
      "Translations and localization changes".data⟩
  | .a11y => ⟨"♿".data, "Accessibility".data, "Accessibility improvements".data⟩
  | .deps => ⟨"⬆️".data, "Dependencies".data,
      "Dependency updates (when not using automated tools)".data⟩

/-- The seventeen registered commit types, in registry order. -/
def allCommitTypes : List CommitType :=
  [.feat, .fix, .docs, .style, .refactor, .perf, .test, .build, .ci, .chore,
   .revert, .security, .deprecate, .breaking, .i18n, .a11y, .deps]

/-- Registry lookup by identifier string, modelling the host record
index `COMMIT_TYPES[type]`: exactly the seventeen registry keys are
present, anything else yields `undefined`.  (The host lookup would also
hit inherited `Object.prototype` members for keys such as `constructor`;
no registered identifier collides with those, and no claim reaches that
corner.) -/
def commitTypeOfStr (s : Str) : Option CommitType :=
  allCommitTypes.find? (fun t => commitTypeName t == s)

/-- Parameters of a commit request (`CommitParams` in `src/types.ts`);
optional host fields that may be absent or empty are `Option`s. -/
structure CommitParams where
  type : CommitType
  scope : Option Str
  title : Str
  description : Option Str
  breaking : Bool
  deriving DecidableEq

/-- Result of validating a commit message (`ValidationResult`). -/
structure ValidationResult where
  valid : Bool
  issues : List Str
  warnings : Option (List Str)
  deriving DecidableEq

/-- First line of a formatted message:
`<emoji> <type>[(<scope>)][!]: <title>` (`formatCommitMessage`, step 1).
An absent or empty scope contributes nothing, as with the host's
falsiness test `scope ? ... : ''`. -/
def formatFirstLine (p : CommitParams) : Str :=
  let emoji := (COMMIT_TYPES p.type).emoji
  let scopeStr : Str :=
    match p.scope with
    | some s => if s = [] then [] else '(' :: (s ++ [')'])
    | none => []
  let bangMark : Str := if p.breaking then ['!'] else []
  emoji ++ ' ' :: (commitTypeName p.type ++ scopeStr ++ bangMark ++ ':' :: ' ' :: p.title)

/-- First line plus the optional description block
(`formatCommitMessage` before the breaking-change marker). -/
def formatBody (p : CommitParams) : Str :=
  match p.description with
  | some d => if d = [] then formatFirstLine p else formatFirstLine p ++ '\n' :: '\n' :: d
  | none => formatFirstLine p

/-- Model of the host `String.prototype.includes`: the needle occurs as a
contiguous substring of the haystack. -/
def strIncludes (needle : Str) : Str → Bool
  | [] => needle.isPrefixOf []
  | c :: t => needle.isPrefixOf (c :: t) || strIncludes needle t

/-- The guard of the breaking-change marker:
`breaking && description && !description.includes('BREAKING CHANGE:')`. -/
def breakingBlockCond (p : CommitParams) : Bool :=
  p.breaking &&
    (match p.description with
     | some d => !d.isEmpty && !(strIncludes "BREAKING CHANGE:".data d)
     | none => false)

/-- The appended breaking-change block (blank line, marker, trailing space). -/
def breakingMarker : Str := "\n\nBREAKING CHANGE: ".data

/-- Format a commit message (`formatCommitMessage` in `src/utils.ts`).
The host function throws on an unregistered type; since `CommitType` is
the closed key set of the registry, that branch is unreachable here. -/
def formatCommitMessage (p : CommitParams) : Str :=
  if breakingBlockCond p then formatBody p ++ breakingMarker else formatBody p

/-- The leading non-whitespace token `[^\s]+` of a line. -/
def emojiTok (l : Str) : Str := l.takeWhile (fun c => !jsSpace c)

/-- The line after its leading token. -/
def emojiRest (l : Str) : Str := l.drop (emojiTok l).length

/-- The whitespace run `\s+` after the leading token. -/
def emojiWs (l : Str) : Str := (emojiRest l).takeWhile jsSpace

/-- Maximal-munch model of the host regex `^([^\s]+)\s+` applied to a line:
returns the leading non-whitespace token, the whitespace run after it and
the remainder, or `none` when the line does not start with a token
followed by whitespace. -/
def matchEmoji (l : Str) : Option (Str × Str × Str) :=
  if emojiTok l = [] then none
  else if emojiWs l = [] then none
  else some (emojiTok l, emojiWs l, (emojiRest l).drop (emojiWs l).length)

/-- Contents `[^)]+` of a parenthesised scope group. -/
def scopeContent (r1 : Str) : Str := r1.tail.takeWhile (fun c => c ≠ ')')

/-- The text after the scope contents, expected to start with `)`. -/
def scopeAfter (r1 : Str) : Str := r1.tail.drop (scopeContent r1).length

/-- The optional group `(\([^)]+\))?` of the header regex: when a `(` is
present the group must match fully, since a leftover `(` can satisfy
neither `(!)?` nor `:`; the scope is the contents of the parentheses
(the host captures with the parentheses and strips them afterwards). -/
def scanScope (r1 : Str) : Option (Option Str × Str) :=
  if r1.head? = some '(' then
    if scopeContent r1 ≠ [] ∧ (scopeAfter r1).head? = some ')' then
      some (some (scopeContent r1), (scopeAfter r1).tail)
    else none
  else some (none, r1)

/-- The whitespace run after the colon of the header. -/
def titleWs (r4 : Str) : Str := r4.takeWhile jsSpace

/-- The text after the whitespace run after the colon. -/
def titleRem (r4 : Str) : Str := r4.drop (titleWs r4).length

/-- The tail `\s+(.+)$` of the header regex applied to the text after the
colon: at least one whitespace character, then a non-empty title running
to the end of the input, in which `.` refuses every line terminator.
With greedy matching the title is everything after the whitespace run,
and the match fails if any line terminator remains there (shortening the
`\s+` run only grows that remainder).  When the whole text is whitespace,
backtracking hands the final character to `(.+)` — succeeding exactly
when that character is not itself a line terminator. -/
def scanTitle (r4 : Str) : Option Str :=
  if titleWs r4 = [] then none
  else if titleRem r4 ≠ [] then
    if (titleRem r4).any lineTerm then none else some (titleRem r4)
  else if 2 ≤ r4.length ∧ lineTerm ((r4.getLast?).getD ' ') = false then
    some [(r4.getLast?).getD ' ']
  else none

/-- The identifier `[a-z]+` at the start of the header. -/
def headerTy (rest : Str) : Str := rest.takeWhile isLowerAZ

/-- Maximal-munch model of the host regex
`^([a-z]+)(\([^)]+\))?(!)?:\s+(.+)$` applied to the rest of the first
line: returns the type identifier, the scope (when present), whether the
`!` marker was captured, and the title.  Mirrors the backtracking
behaviour of the host engine: the alternations are forced, so maximal
munch is exact. -/
def matchTypeHeader (rest : Str) : Option (Str × Option Str × Bool × Str) :=
  if headerTy rest = [] then none
  else
    match scanScope (rest.drop (headerTy rest).length) with
    | none => none
    | some (scope, r2) =>
      if r2.head? = some '!' then
        if r2.tail.head? = some ':' then
          (scanTitle r2.tail.tail).map (fun t => (headerTy rest, scope, true, t))
        else none
      else
        if r2.head? = some ':' then
          (scanTitle r2.tail).map (fun t => (headerTy rest, scope, false, t))
        else none

/-- Structural issue reported when the first line has no emoji token. -/
def emojiIssueStr : Str := "Commit message must start with an emoji".data

/-- Structural issue reported when the header regex fails. -/
def formatIssueStr : Str :=
  "Invalid commit format. Expected: <emoji> <type>(<scope>): <title>".data

/-- The non-imperative prefixes checked by the validator. -/
def nonImperativePrefixes : List Str :=
  ["added".data, "adds".data, "fixed".data, "fixes".data, "updated".data, "updates".data]

/-- The replacement chain
`prefix.replace(/s?ed$/,'').replace(/es$/,'').replace(/s$/,'')`
suggesting an imperative form. -/
def stripImperativeSuffix (p : Str) : Str :=
  let p1 :=
    if "sed".data.isSuffixOf p then p.take (p.length - 3)
    else if "ed".data.isSuffixOf p then p.take (p.length - 2)
    else p
  let p2 := if "es".data.isSuffixOf p1 then p1.take (p1.length - 2) else p1
  if "s".data.isSuffixOf p2 then p2.take (p2.length - 1) else p2

/-- Warnings of the validator on the extracted title, in source order:
length, capitalisation, trailing period, imperative mood.  The
capitalisation test uses ASCII case mapping where the host uses Unicode
`toUpperCase`/`toLowerCase`; warnings never affect validity. -/
def titleWarnings (title : Str) : List Str :=
  (if 50 < title.length then
     ["Title is ".data ++ natStr title.length ++ " characters (recommended max: 50)".data]
   else []) ++
  (match title.head? with
   | some c => if c.toUpper = c ∧ c.toLower ≠ c then
       ["Title should start with lowercase letter".data] else []
   | none => []) ++
  (if ['.'].isSuffixOf title then ["Title should not end with a period".data] else []) ++
  (match nonImperativePrefixes.find? (fun q => q.isPrefixOf (lowerStr title)) with
   | some q =>
     ["Use imperative mood: \"".data ++ q ++ "\" should be \"".data ++
        stripImperativeSuffix q ++ ['\"']]
   | none => [])

/-- Warnings of the validator on the description lines: non-blank second
line, and per-line length from the third line on (`i` is the zero-based
index into `lines`, the message cites the one-based line number). -/
def descriptionWarnings (lines : List Str) : List Str :=
  (match lines.get? 1 with
   | some l => if l ≠ [] then
       ["Second line should be blank (separate title from description)".data] else []
   | none => []) ++
  ((lines.enum.filter (fun il => 2 ≤ il.1 ∧ 72 < il.2.length)).map
    (fun il => "Line ".data ++ natStr (il.1 + 1) ++ " is ".data ++
      natStr il.2.length ++ " characters (recommended max: 72)".data))

/-- Validate a commit message (`validateCommitMessage` in `src/utils.ts`). -/
def validateCommitMessage (m : Str) : ValidationResult :=
  if m = [] ∨ jsTrim m = [] then
    ⟨false, ["Commit message cannot be empty".data], none⟩
  else
    let lines := splitOnChar '\n' m
    let firstLine := lines.headD []
    match matchEmoji firstLine with
    | none => ⟨false, [emojiIssueStr], none⟩
    | some (emoji, _, _) =>
      let restOfLine := firstLine.drop (emoji.length + 1)
      match matchTypeHeader restOfLine with
      | none => ⟨false, [formatIssueStr], none⟩
      | some (ty, _, _, title) =>
        let typeIssues : List Str :=
          match commitTypeOfStr ty with
          | none => ["Invalid commit type: ".data ++ ty]
          | some ct =>
            if emoji ≠ (COMMIT_TYPES ct).emoji then
              ["Emoji ".data ++ emoji ++ " doesn't match type ".data ++ ty ++
                 ". Expected ".data ++ (COMMIT_TYPES ct).emoji]
            else []
        let titleIssues : List Str :=
          if title.length = 0 then ["Title cannot be empty".data] else []
        let issues := typeIssues ++ titleIssues
        let warnings := titleWarnings title ++ descriptionWarnings lines
        ⟨issues.isEmpty, issues, if warnings = [] then none else some warnings⟩

/-- The structural decomposition produced by `parseCommitMessage`; the
`type` field is the raw captured identifier (the host performs an
unchecked cast to `CommitType`). -/
structure ParsedCommit where
  type : Str
  scope : Option Str
  title : Str
  description : Option Str
  breaking : Bool
  deriving DecidableEq

/-- Parse a commit message (`parseCommitMessage` in `src/utils.ts`).
The remainder handed to the header regex starts after the whole matched
prefix `emojiMatch[0]` (token plus full whitespace run). -/
def parseCommitMessage (m : Str) : Option ParsedCommit :=
  let lines := splitOnChar '\n' m
  let firstLine := lines.headD []
  match matchEmoji firstLine with
  | none => none
  | some (_, _, rest) =>
    match matchTypeHeader rest with
    | none => none
    | some (ty, scope, bang, title) =>
      let description :=
        if 2 < lines.length then some (jsTrim (joinSep '\n' (lines.drop 2))) else none
      some ⟨ty, scope, title, description, bang⟩

/-- One pass of the greedy word-wrap loop of `wrapText`: consume the
remaining words, carrying the flushed lines and the current line. -/
def wrapStep (width : Nat) : List Str → List Str → Str → List Str
  | [], lines, cur => if 0 < cur.length then lines ++ [cur] else lines
  | w :: ws, lines, cur =>
    if cur.length + w.length + 1 ≤ width then
      wrapStep width ws lines (cur ++ (if 0 < cur.length then ' ' :: w else w))
    else
      wrapStep width ws (if 0 < cur.length then lines ++ [cur] else lines) w

/-- Wrap text to the given width (`wrapText` in `src/utils.ts`). -/
def wrapText (text : Str) (width : Nat := 72) : Str :=
  joinSep '\n' (wrapStep width (splitOnChar ' ' text) [] [])

/-- Git diff statistics (`DiffStats` in `src/types.ts`). -/
structure DiffStats where
  additions : Nat
  deletions : Nat
  files : List Str
  deriving DecidableEq

/-- Confidence of a suggestion. -/
inductive Confidence
  | high | medium | low
  deriving DecidableEq

/-- Result of the commit type suggestion (`SuggestionResult`). -/
structure SuggestionResult where
  type : CommitType
  emoji : Str
  reason : Str
  confidence : Confidence
  deriving DecidableEq

/-- The error thrown by the classifier when nothing is staged. -/
inductive GitError
  | noStagedChanges
  deriving DecidableEq

instance instDecEqExcept {e a : Type} [DecidableEq e] [DecidableEq a] :
    DecidableEq (Except e a) := fun x y =>
  match x, y with
  | .ok v, .ok w =>
    if h : v = w then isTrue (by rw [h])
    else isFalse (by intro hh; cases hh; exact h rfl)
  | .error v, .error w =>
    if h : v = w then isTrue (by rw [h])
    else isFalse (by intro hh; cases hh; exact h rfl)
  | .ok _, .error _ => isFalse (by intro hh; cases hh)
  | .error _, .ok _ => isFalse (by intro hh; cases hh)

/-- Documentation file pattern of the classifier:
extension `md|txt|rst|adoc` (case-insensitive), or path containing
`README` or `docs/`. -/
def isDocFile (f : Str) : Bool :=
  [".md", ".txt", ".rst", ".adoc"].any (fun e => e.data.isSuffixOf (lowerStr f)) ||
    strIncludes "README".data f || strIncludes "docs/".data f

/-- Test file pattern: `.test`/`.spec` with a `ts|js|tsx|jsx` extension
(case-insensitive), or a test directory in the path. -/
def isTestFile (f : Str) : Bool :=
  ([".test.ts", ".test.js", ".test.tsx", ".test.jsx",
    ".spec.ts", ".spec.js", ".spec.tsx", ".spec.jsx"].any
      (fun e => e.data.isSuffixOf (lowerStr f))) ||
    strIncludes "__tests__/".data f || strIncludes "test/".data f ||
    strIncludes "tests/".data f

/-- CI file pattern: a YAML extension (case-insensitive) and a CI marker
in the path. -/
def isCIFile (f : Str) : Bool :=
  ([".yml", ".yaml"].any (fun e => e.data.isSuffixOf (lowerStr f))) &&
    (strIncludes ".github/".data f || strIncludes ".gitlab/".data f ||
     strIncludes "jenkins".data f || strIncludes "circle".data f)

/-- Dependency/build manifest pattern: the whole file name equals one of
the known manifests, case-insensitively (the host regex is anchored at
both ends). -/
def isBuildFile (f : Str) : Bool :=
  ["package.json", "package-lock.json", "yarn.lock", "pnpm-lock.yaml",
   "gemfile.lock", "requirements.txt", "pom.xml", "build.gradle",
   "cargo.toml", "go.mod", "go.sum"].any (fun e => lowerStr f = e.data)

/-- Dependency discriminator inside the manifest rule:
`f.match(/lock|package\.json/i)`. -/
def isDepsFile (f : Str) : Bool :=
  strIncludes "lock".data (lowerStr f) || strIncludes "package.json".data (lowerStr f)

/-- Config file pattern: a config-like extension, optionally followed by a
code extension, or a dotfile. -/
def isConfigFile (f : Str) : Bool :=
  (let bases := [".config", ".conf", ".cfg", ".ini", ".env", ".rc"]
   let exts := ["", ".ts", ".js", ".json", ".yaml", ".yml"]
   bases.any (fun b => exts.any (fun e => (b ++ e).data.isSuffixOf (lowerStr f)))) ||
    f.head? = some '.'

/-- Rule guard `docFiles.length > 0 && docFiles.length === files.length`. -/
def allMatchRule (p : Str → Bool) (files : List Str) : Bool :=
  0 < (files.filter p).length && (files.filter p).length = files.length

/-- Suggest a commit type from staged-change statistics
(`suggestCommitType` in `src/git.ts`); the statistics retrieval by the
version-control collaborator is abstracted into the argument.  The host's
floating-point `additions / deletions` ratio is modelled exactly over
`ℚ`; no branch decided by the claims depends on rounding. -/
def suggestCommitType (stats : DiffStats) : Except GitError SuggestionResult :=
  if stats.files.length = 0 then .error .noStagedChanges
  else if allMatchRule isDocFile stats.files then
    .ok ⟨.docs, (COMMIT_TYPES .docs).emoji,
      "All changes are to documentation files".data, .high⟩
  else if allMatchRule isTestFile stats.files then
    .ok ⟨.test, (COMMIT_TYPES .test).emoji,
      "All changes are to test files".data, .high⟩
  else if allMatchRule isCIFile stats.files then
    .ok ⟨.ci, (COMMIT_TYPES .ci).emoji,
      "All changes are to CI/CD configuration files".data, .high⟩
  else if 0 < (stats.files.filter isBuildFile).length then
    if (stats.files.filter isBuildFile).any isDepsFile then
      .ok ⟨.deps, (COMMIT_TYPES .deps).emoji,
        "Changes to dependency files detected".data, .high⟩
    else
      .ok ⟨.build, (COMMIT_TYPES .build).emoji,
        "Changes to build configuration detected".data, .high⟩
  else if allMatchRule isConfigFile stats.files then
    .ok ⟨.chore, (COMMIT_TYPES .chore).emoji,
      "All changes are to configuration files".data, .high⟩
  else
    let ratio : ℚ :=
      if 0 < stats.deletions then (stats.additions : ℚ) / (stats.deletions : ℚ)
      else if 0 < stats.additions then 10 else 0
    if 2 < ratio ∧ 50 < stats.additions then
      .ok ⟨.feat, (COMMIT_TYPES .feat).emoji,
        "Significant additions (".data ++ natStr stats.additions ++
          " lines added vs ".data ++ natStr stats.deletions ++
          " deleted) suggest new feature".data, .medium⟩
    else if (7 : ℚ)/10 < ratio ∧ ratio < (13 : ℚ)/10 ∧
        100 < stats.additions + stats.deletions then
      .ok ⟨.refactor, (COMMIT_TYPES .refactor).emoji,
        "Balanced changes (".data ++ natStr stats.additions ++ " added, ".data ++
          natStr stats.deletions ++ " deleted) suggest refactoring".data, .medium⟩
    else if stats.additions + stats.deletions < 50 then
      .ok ⟨.fix, (COMMIT_TYPES .fix).emoji, "Small changes suggest bug fix".data, .low⟩
    else
      .ok ⟨.feat, (COMMIT_TYPES .feat).emoji,
        "Unable to determine specific type, defaulting to feature".data, .low⟩

/-- The version-control collaborator of the commit operation: whether
staged changes exist, and the commit creation returning an identifier. -/
structure GitEnv where
  hasStagedChanges : Bool
  createCommit : Str → Str

/-- Failures of the commit operation (`handleCommit` in the server). -/
inductive CommitError
  | noStagedChanges
  | invalidMessage (issues : List Str)
  deriving DecidableEq

/-- Success payload of the commit operation: the identifier returned by
the collaborator, the formatted message, and the validation warnings
rendered into the response text. -/
structure CommitResponse where
  hash : Str
  message : Str
  warnings : Option (List Str)
  deriving DecidableEq

/-- The `git_commit` tool handler (`handleCommit` in the server), with the
collaborator passed explicitly; the second component records the messages
the collaborator's commit operation was invoked on, in order. -/
def handleCommit (env : GitEnv) (p : CommitParams) :
    Except CommitError CommitResponse × List Str :=
  if !env.hasStagedChanges then (.error .noStagedChanges, [])
  else
    let message := formatCommitMessage p
    let validation := validateCommitMessage message
    if !validation.valid then (.error (.invalidMessage validation.issues), [])
    else (.ok ⟨env.createCommit message, message, validation.warnings⟩, [message])

/-- Structural well-formedness of commit parameters: the conditions under
which the formatted first line is unambiguous — a purely alphabetic type
identifier, a non-empty title that does not begin with whitespace and
contains no line terminator, a scope (when present) that is non-empty and
free of `)` and newlines, and a description (when present) that is
non-empty. -/
def wellFormedParams (p : CommitParams) : Bool :=
  (commitTypeName p.type).all isLowerAZ &&
  (match p.title with
   | [] => false
   | c :: _ => !jsSpace c) &&
  !(p.title.any lineTerm) &&
  (match p.scope with
   | some s => !s.isEmpty && !(s.contains ')') && !(s.contains '\n')
   | none => true) &&
  (match p.description with
   | some d => !d.isEmpty
   | none => true)

/-- A header of the shape `<type>[(<scope>)][!]: <title>` assembled from
its four components. -/
def headerTailOf (tyn : Str) (scope : Option Str) (bang : Bool) (title : Str) : Str :=
  tyn ++
    (match scope with
     | some s => '(' :: (s ++ [')'])
     | none => []) ++
    (if bang then ['!'] else []) ++ ':' :: ' ' :: title

/-- The part of a well-formed formatted first line after the emoji and its
separating space: `<type>[(<scope>)][!]: <title>`. -/
def headerTail (p : CommitParams) : Str :=
  headerTailOf (commitTypeName p.type) p.scope p.breaking p.title

/-- The whitespace run separating the leading token of the first line from
the rest is a single character (when the token exists at all); this is the
regime in which `validate`'s offset `emoji.length + 1` and `parse`'s
offset `emojiMatch[0].length` agree. -/
def singleSepOK (m : Str) : Bool :=
  match matchEmoji ((splitOnChar '\n' m).headD []) with
  | some (_, ws, _) => ws.length == 1
  | none => true

/-! ### Helper lemmas about the string primitives -/

theorem takeWhile_append_cons (p : Char → Bool) (xs : Str) (y : Char) (ys : Str)
    (hx : ∀ c ∈ xs, p c = true) (hy : p y = false) :
    (xs ++ y :: ys).takeWhile p = xs := by
  induction xs with
  | nil => simp [List.takeWhile_cons, hy]
  | cons a t ih =>
    have ha : p a = true := hx a (List.mem_cons_self a t)
    simp only [List.cons_append, List.takeWhile_cons, ha, if_true]
    exact congrArg (a :: ·) (ih (fun c hc => hx c (List.mem_cons_of_mem a hc)))

theorem takeWhile_append_all (p : Char → Bool) (xs ys : Str)
    (hx : ∀ c ∈ xs, p c = true) :
    (xs ++ ys).takeWhile p = xs ++ ys.takeWhile p := by
  induction xs with
  | nil => simp
  | cons a t ih =>
    have ha : p a = true := hx a (List.mem_cons_self a t)
    simp only [List.cons_append, List.takeWhile_cons, ha, if_true]
    exact congrArg (a :: ·) (ih (fun c hc => hx c (List.mem_cons_of_mem a hc)))

theorem splitOnChar_ne_nil (sep : Char) (s : Str) : splitOnChar sep s ≠ [] := by
  induction s with
  | nil => simp [splitOnChar]
  | cons c cs ih =>
    by_cases h : c = sep
    · simp [splitOnChar, h]
    · simp only [splitOnChar, if_neg h]
      cases hs : splitOnChar sep cs with
      | nil => simp
      | cons l ls => simp

theorem splitOnChar_of_not_mem (sep : Char) (s : Str) (h : sep ∉ s) :
    splitOnChar sep s = [s] := by
  induction s with
  | nil => rfl
  | cons c cs ih =>
    have hc : ¬(c = sep) := fun hc => h (hc ▸ List.mem_cons_self c cs)
    have hcs : sep ∉ cs := fun hm => h (List.mem_cons_of_mem c hm)
    simp only [splitOnChar, if_neg hc, ih hcs]

theorem splitOnChar_append_sep (sep : Char) (xs ys : Str) (h : sep ∉ xs) :
    splitOnChar sep (xs ++ sep :: ys) = xs :: splitOnChar sep ys := by
  induction xs with
  | nil => simp [splitOnChar]
  | cons c cs ih =>
    have hc : ¬(c = sep) := fun hc => h (hc ▸ List.mem_cons_self c cs)
    have hcs : sep ∉ cs := fun hm => h (List.mem_cons_of_mem c hm)
    simp only [List.cons_append, splitOnChar, if_neg hc, List.append_eq, ih hcs]

theorem joinSep_splitOnChar (sep : Char) (s : Str) :
    joinSep sep (splitOnChar sep s) = s := by
  induction s with
  | nil => rfl
  | cons c cs ih =>
    by_cases h : c = sep
    · subst h
      simp only [splitOnChar, if_pos rfl]
      cases hs : splitOnChar c cs with
      | nil => exact absurd hs (splitOnChar_ne_nil c cs)
      | cons l ls => rw [hs] at ih; simpa [joinSep] using ih
    · simp only [splitOnChar, if_neg h]
      cases hs : splitOnChar sep cs with
      | nil => exact absurd hs (splitOnChar_ne_nil sep cs)
      | cons l ls =>
        rw [hs] at ih
        cases ls with
        | nil => simpa [joinSep] using ih
        | cons l2 ls2 => simpa [joinSep] using ih

theorem splitOnChar_joinSep (sep : Char) (ls : List Str)
    (h : ∀ l ∈ ls, sep ∉ l) (hne : ls ≠ []) :
    splitOnChar sep (joinSep sep ls) = ls := by
  induction ls with
  | nil => exact absurd rfl hne
  | cons l rest ih =>
    cases rest with
    | nil =>
      simpa [joinSep] using
        splitOnChar_of_not_mem sep l (h l (List.mem_cons_self l []))
    | cons l2 rest2 =>
      have hstep : joinSep sep (l :: l2 :: rest2) = l ++ sep :: joinSep sep (l2 :: rest2) := rfl
      rw [hstep, splitOnChar_append_sep sep l _ (h l (List.mem_cons_self l _)),
        ih (fun x hx => h x (List.mem_cons_of_mem l hx)) (by simp)]

theorem mem_of_mem_splitOnChar (sep : Char) (s : Str) (l : Str) (c : Char)
    (hl : l ∈ splitOnChar sep s) (hc : c ∈ l) : c ∈ s := by
  induction s generalizing l with
  | nil =>
    simp only [splitOnChar, List.mem_singleton] at hl
    subst hl; cases hc
  | cons a t ih =>
    by_cases h : a = sep
    · simp only [splitOnChar, if_pos h, List.mem_cons] at hl
      rcases hl with rfl | hl
      · cases hc
      · exact List.mem_cons_of_mem a (ih l hl hc)
    · simp only [splitOnChar, if_neg h] at hl
      cases hs : splitOnChar sep t with
      | nil => exact absurd hs (splitOnChar_ne_nil sep t)
      | cons x xs =>
        rw [hs] at hl
        simp only [List.mem_cons] at hl
        rcases hl with rfl | hl
        · rcases List.mem_cons.mp hc with rfl | hc2
          · exact List.mem_cons_self c t
          · exact List.mem_cons_of_mem a (ih x (hs ▸ List.mem_cons_self x xs) hc2)
        · exact List.mem_cons_of_mem a (ih l (hs ▸ List.mem_cons_of_mem x hl) hc)

theorem perm_any (p : Str → Bool) {l1 l2 : List Str} (h : l1.Perm l2) :
    l1.any p = l2.any p := by
  rw [Bool.eq_iff_iff, List.any_eq_true, List.any_eq_true]
  exact ⟨fun ⟨x, hx, hp⟩ => ⟨x, h.mem_iff.mp hx, hp⟩,
    fun ⟨x, hx, hp⟩ => ⟨x, h.mem_iff.mpr hx, hp⟩⟩

theorem scanTitle_ne_nil {r4 title : Str} (h : scanTitle r4 = some title) :
    title ≠ [] := by
  unfold scanTitle at h
  split at h
  · cases h
  · split at h
    · split at h
      · cases h
      · rename_i hws hrem hterm
        injection h with h2
        exact h2 ▸ hrem
    · split at h
      · injection h with h2
        rw [← h2]
        simp
      · cases h

theorem matchTypeHeader_title_ne_nil {rest ty title : Str} {scope : Option Str}
    {bang : Bool} (h : matchTypeHeader rest = some (ty, scope, bang, title)) :
    title ≠ [] := by
  unfold matchTypeHeader at h
  split at h
  · cases h
  · split at h
    · cases h
    · rename_i scope2 r2 heq
      split at h
      · split at h
        · rcases Option.map_eq_some'.mp h with ⟨t, ht, hmap⟩
          have h4 := congrArg (fun q => q.2.2.2) hmap
          simp only at h4
          exact h4 ▸ scanTitle_ne_nil ht
        · cases h
      · split at h
        · rcases Option.map_eq_some'.mp h with ⟨t, ht, hmap⟩
          have h4 := congrArg (fun q => q.2.2.2) hmap
          simp only at h4
          exact h4 ▸ scanTitle_ne_nil ht
        · cases h

theorem ne_of_head {a b : Str} {x y : Char} (hx : a.head? = some x)
    (hy : b.head? = some y) (hxy : x ≠ y) : a ≠ b := by
  intro h
  subst h
  rw [hx] at hy
  exact hxy (Option.some.inj hy)

theorem lower_not_space {c : Char} (h : isLowerAZ c = true) : jsSpace c = false := by
  simp only [isLowerAZ, Bool.and_eq_true, decide_eq_true_eq] at h
  obtain ⟨ha, hz⟩ := h
  cases hj : jsSpace c
  · rfl
  · exfalso
    simp only [jsSpace, Bool.or_eq_true, beq_iff_eq, Bool.and_eq_true,
      decide_eq_true_eq, or_assoc] at hj
    rcases hj with
      h1 | h1 | h1 | h1 | h1 | h1 | h1 | h1 | ⟨h1, _⟩ | h1 | h1 | h1 | h1 |
        h1 | h1
    all_goals first
      | (subst h1; exact absurd ha (by decide))
      | (subst h1; exact absurd hz (by decide))
      | exact absurd (le_trans h1 hz) (by decide)

theorem nonspace_ne_newline {c : Char} (h : jsSpace c = false) : c ≠ '\n' :=
  fun hc => absurd (hc ▸ h) (by decide)

theorem emoji_wf : ∀ t : CommitType,
    (COMMIT_TYPES t).emoji ≠ [] ∧ ∀ c ∈ (COMMIT_TYPES t).emoji, jsSpace c = false := by
  decide

theorem commitTypeName_ne_nil : ∀ t : CommitType, commitTypeName t ≠ [] := by
  decide

theorem matchEmoji_of_token (e rest : Str) (he : e ≠ [])
    (hens : ∀ c ∈ e, jsSpace c = false)
    (hrest : ∀ c, rest.head? = some c → jsSpace c = false) :
    matchEmoji (e ++ ' ' :: rest) = some (e, [' '], rest) := by
  have htok : emojiTok (e ++ ' ' :: rest) = e := by
    rw [emojiTok]
    exact takeWhile_append_cons _ e ' ' rest
      (fun c hc => by rw [hens c hc]; rfl) (by decide)
  have hrest0 : emojiRest (e ++ ' ' :: rest) = ' ' :: rest := by
    rw [emojiRest, htok, List.drop_left]
  have hws : emojiWs (e ++ ' ' :: rest) = [' '] := by
    rw [emojiWs, hrest0]
    cases rest with
    | nil => rfl
    | cons c t =>
      have hc := hrest c rfl
      simp [List.takeWhile_cons, hc, show jsSpace ' ' = true from by decide]
  rw [matchEmoji, htok, hws, hrest0, if_neg he, if_neg (by simp)]
  rfl

theorem matchEmoji_inv {l tok ws rest : Str}
    (h : matchEmoji l = some (tok, ws, rest)) :
    tok = emojiTok l ∧ ws = emojiWs l ∧ rest = l.drop (tok.length + ws.length) := by
  rw [matchEmoji] at h
  split at h
  · cases h
  · split at h
    · cases h
    · have h3 := Option.some.inj h
      have t1 := congrArg (fun q => q.1) h3
      have t2 := congrArg (fun q => q.2.1) h3
      have t3 := congrArg (fun q => q.2.2) h3
      simp only at t1 t2 t3
      refine ⟨t1.symm, t2.symm, ?_⟩
      rw [← t3, ← t1, ← t2, emojiRest, List.drop_drop, Nat.add_comm]

theorem scanTitle_space (title : Str) (htne : title ≠ [])
    (hthead : ∀ c, title.head? = some c → jsSpace c = false)
    (hterm : title.any lineTerm = false) :
    scanTitle (' ' :: title) = some title := by
  have hws : titleWs (' ' :: title) = [' '] := by
    rw [titleWs]
    cases title with
    | nil => exact absurd rfl htne
    | cons c t =>
      have hc := hthead c rfl
      simp [List.takeWhile_cons, hc, show jsSpace ' ' = true from by decide]
  have hrem : titleRem (' ' :: title) = title := by
    rw [titleRem, hws]
    rfl
  rw [scanTitle, hws, hrem, if_neg (by simp), if_pos htne,
    if_neg (by rw [hterm]; exact Bool.false_ne_true)]

theorem scanScope_none_shape (r : Str) (hr : ¬r.head? = some '(') :
    scanScope r = some (none, r) := by
  rw [scanScope, if_neg hr]

theorem scanScope_some_shape (s R2 : Str) (hs : s ≠ []) (hnp : ')' ∉ s) :
    scanScope ('(' :: (s ++ ')' :: R2)) = some (some s, R2) := by
  have hcontent : scopeContent ('(' :: (s ++ ')' :: R2)) = s := by
    rw [scopeContent, List.tail_cons]
    exact takeWhile_append_cons _ s ')' R2
      (fun c hc => decide_eq_true (fun h => hnp (h ▸ hc))) (by decide)
  have hafter : scopeAfter ('(' :: (s ++ ')' :: R2)) = ')' :: R2 := by
    rw [scopeAfter, hcontent, List.tail_cons, List.drop_left]
  have hh : ('(' :: (s ++ ')' :: R2)).head? = some '(' := rfl
  rw [scanScope, if_pos hh,
    if_pos (show scopeContent ('(' :: (s ++ ')' :: R2)) ≠ [] ∧
        (scopeAfter ('(' :: (s ++ ')' :: R2))).head? = some ')' by
      rw [hcontent, hafter]; exact ⟨hs, rfl⟩),
    hcontent, hafter, List.tail_cons]

theorem matchTypeHeader_build (tyn : Str) (scope : Option Str) (bang : Bool)
    (title : Str) (htyn : tyn ≠ []) (htyl : ∀ c ∈ tyn, isLowerAZ c = true)
    (hsc : ∀ s, scope = some s → s ≠ [] ∧ ')' ∉ s)
    (htne : title ≠ []) (hthead : ∀ c, title.head? = some c → jsSpace c = false)
    (hterm : title.any lineTerm = false) :
    matchTypeHeader (headerTailOf tyn scope bang title) =
      some (tyn, scope, bang, title) := by
  unfold headerTailOf
  rcases scope with _ | s
  · cases bang
    · simp only [List.nil_append, List.append_nil, List.cons_append,
        List.singleton_append, List.append_assoc, eq_self_iff_true, if_true,
        Bool.false_eq_true, if_false]
      have h1 : headerTy (tyn ++ ':' :: ' ' :: title) = tyn :=
        takeWhile_append_cons _ tyn ':' _ htyl (by decide)
      rw [matchTypeHeader, h1, if_neg htyn, List.drop_left,
        scanScope_none_shape _ (by simp)]
      dsimp only
      rw [if_neg (by simp),
        if_pos (show (':' :: ' ' :: title).head? = some ':' from rfl),
        List.tail_cons, scanTitle_space title htne hthead hterm]
      rfl
    · simp only [List.nil_append, List.append_nil, List.cons_append,
        List.singleton_append, List.append_assoc, eq_self_iff_true, if_true,
        Bool.false_eq_true, if_false]
      have h1 : headerTy (tyn ++ '!' :: ':' :: ' ' :: title) = tyn :=
        takeWhile_append_cons _ tyn '!' _ htyl (by decide)
      rw [matchTypeHeader, h1, if_neg htyn, List.drop_left,
        scanScope_none_shape _ (by simp)]
      dsimp only
      rw [if_pos (show ('!' :: ':' :: ' ' :: title).head? = some '!' from rfl),
        List.tail_cons,
        if_pos (show (':' :: ' ' :: title).head? = some ':' from rfl),
        List.tail_cons, scanTitle_space title htne hthead hterm]
      rfl
  · obtain ⟨hs, hnp⟩ := hsc s rfl
    cases bang
    · simp only [List.append_nil, List.cons_append, List.append_assoc,
        List.singleton_append, List.nil_append, eq_self_iff_true, if_true,
        Bool.false_eq_true, if_false]
      have h1 : headerTy (tyn ++ '(' :: (s ++ ')' :: ':' :: ' ' :: title)) = tyn :=
        takeWhile_append_cons _ tyn '(' _ htyl (by decide)
      rw [matchTypeHeader, h1, if_neg htyn, List.drop_left,
        scanScope_some_shape s _ hs hnp]
      dsimp only
      rw [if_neg (by simp),
        if_pos (show (':' :: ' ' :: title).head? = some ':' from rfl),
        List.tail_cons, scanTitle_space title htne hthead hterm]
      rfl
    · simp only [List.append_nil, List.cons_append, List.append_assoc,
        List.singleton_append, List.nil_append, eq_self_iff_true, if_true,
        Bool.false_eq_true, if_false]
      have h1 : headerTy (tyn ++ '(' :: (s ++ ')' :: '!' :: ':' :: ' ' :: title)) = tyn :=
        takeWhile_append_cons _ tyn '(' _ htyl (by decide)
      rw [matchTypeHeader, h1, if_neg htyn, List.drop_left,
        scanScope_some_shape s _ hs hnp]
      dsimp only
      rw [if_pos (show ('!' :: ':' :: ' ' :: title).head? = some '!' from rfl),
        List.tail_cons,
        if_pos (show (':' :: ' ' :: title).head? = some ':' from rfl),
        List.tail_cons, scanTitle_space title htne hthead hterm]
      rfl

theorem not_mem_of_contains_eq_false {l : Str} {c : Char}
    (h : l.contains c = false) : c ∉ l := by
  intro hm
  simp [List.contains] at h
  exact h hm

theorem emoji_no_newline (t : CommitType) : '\n' ∉ (COMMIT_TYPES t).emoji :=
  fun h => absurd ((emoji_wf t).2 '\n' h) (by decide)

theorem typeName_no_newline : ∀ t : CommitType, '\n' ∉ commitTypeName t := by
  decide

theorem commitTypeName_head_nonspace (p : CommitParams)
    (htyl : ∀ c ∈ commitTypeName p.type, isLowerAZ c = true) :
    ∀ c, (headerTail p).head? = some c → jsSpace c = false := by
  intro c hc
  obtain ⟨a, t, hat⟩ : ∃ a t, commitTypeName p.type = a :: t := by
    cases h : commitTypeName p.type with
    | nil => exact absurd h (commitTypeName_ne_nil p.type)
    | cons a t => exact ⟨a, t, rfl⟩
  rw [headerTail, headerTailOf.eq_def, hat] at hc
  simp only [List.cons_append, List.head?_cons] at hc
  have hlow := htyl a (by rw [hat]; exact List.mem_cons_self a t)
  rw [← Option.some.inj hc]
  exact lower_not_space hlow

theorem formatFirstLine_shape (p : CommitParams)
    (hsc : ∀ s, p.scope = some s → s ≠ []) :
    formatFirstLine p = (COMMIT_TYPES p.type).emoji ++ ' ' :: headerTail p := by
  rw [formatFirstLine, headerTail, headerTailOf.eq_def]
  rcases hp : p.scope with _ | s
  · rfl
  · dsimp only
    rw [if_neg (hsc s hp)]

theorem formatFirstLine_no_newline (p : CommitParams)
    (htnl : '\n' ∉ p.title)
    (hsc : ∀ s, p.scope = some s → s ≠ [] ∧ '\n' ∉ s) :
    '\n' ∉ formatFirstLine p := by
  rw [formatFirstLine_shape p (fun s hs => (hsc s hs).1), headerTail,
    headerTailOf.eq_def]
  intro hmem
  rcases List.mem_append.mp hmem with h | h
  · exact emoji_no_newline p.type h
  · rcases List.mem_cons.mp h with h | h
    · exact absurd h (by decide)
    · rcases List.mem_append.mp h with h | h
      · rcases List.mem_append.mp h with h | h
        · rcases List.mem_append.mp h with h | h
          · exact typeName_no_newline p.type h
          · rcases hp : p.scope with _ | s
            · rw [hp] at h
              cases h
            · rw [hp] at h
              dsimp only at h
              rcases List.mem_cons.mp h with h | h
              · exact absurd h (by decide)
              · rcases List.mem_append.mp h with h | h
                · exact (hsc s hp).2 h
                · rw [List.mem_singleton] at h
                  exact absurd h (by decide)
        · revert h
          split
          · intro h
            rw [List.mem_singleton] at h
            exact absurd h (by decide)
          · exact List.not_mem_nil '\n'
      · rcases List.mem_cons.mp h with h | h
        · exact absurd h (by decide)
        · rcases List.mem_cons.mp h with h | h
          · exact absurd h (by decide)
          · exact htnl h

theorem invalid_type_ne_format (ty : Str) :
    ("Invalid commit type: ".data ++ ty) ≠ formatIssueStr := by
  intro h
  have h16 := congrArg (fun l => l.take 16) h
  have hL : ("Invalid commit type: ".data ++ ty).take 16 = "Invalid commit t".data := rfl
  have hR : formatIssueStr.take 16 = "Invalid commit f".data := rfl
  simp only [hL, hR] at h16
  exact absurd h16 (by decide)

/-! ### Claims -/

/-- C1: the spec requires `validate(format(f)).valid = true` for every
registered type with a well-behaved title, naming `i18n` and `a11y`; the
code rejects both, because the header regex `^([a-z]+)...` cannot match a
type identifier containing a digit.  The formatted `i18n`/`a11y` messages
fail validation with the structural `Invalid commit format` issue even
though both types are registered and advertised by the commit tool. -/
theorem validate_format_rejects_i18n_a11y :
    (validateCommitMessage (formatCommitMessage
        ⟨.i18n, none, "add translations".data, none, false⟩)).valid = false ∧
    (validateCommitMessage (formatCommitMessage
        ⟨.i18n, none, "add translations".data, none, false⟩)).issues = [formatIssueStr] ∧
    (validateCommitMessage (formatCommitMessage
        ⟨.a11y, none, "improve focus order".data, none, false⟩)).valid = false ∧
    (validateCommitMessage (formatCommitMessage
        ⟨.a11y, none, "improve focus order".data, none, false⟩)).issues = [formatIssueStr] := by
  decide

/-- C2 counterexample: with `breaking = true` and a description lacking the
marker, `format` appends an empty `BREAKING CHANGE:` block, so the parsed
description is not the original description up to whitespace
normalisation — it gains non-whitespace text. -/
theorem parse_format_breaking_not_roundtrip :
    parseCommitMessage (formatCommitMessage
        ⟨.feat, none, "add login".data, some "adds oauth".data, true⟩) =
      some ⟨"feat".data, none, "add login".data,
        some "adds oauth\n\nBREAKING CHANGE:".data, true⟩ ∧
    "adds oauth\n\nBREAKING CHANGE:".data.filter (fun c => !jsSpace c) ≠
      "adds oauth".data.filter (fun c => !jsSpace c) := by
  decide

/-- C2 amended: for structurally well-formed parameters, the round-trip
`parse(format(f)) = f` holds — with the description compared up to host
`trim` — provided the breaking-change block is not appended, i.e. except
when `breaking` is true and a description lacking the `BREAKING CHANGE:`
marker is present (in that case the parsed description additionally
carries the appended marker block, as the counterexample shows). -/
theorem parse_format_roundtrip (p : CommitParams)
    (hwf : wellFormedParams p = true)
    (hbb : breakingBlockCond p = false) :
    parseCommitMessage (formatCommitMessage p) =
      some ⟨commitTypeName p.type, p.scope, p.title, p.description.map jsTrim,
        p.breaking⟩ := by
  rw [wellFormedParams] at hwf
  simp only [Bool.and_eq_true] at hwf
  obtain ⟨⟨⟨⟨htyl0, hthead0⟩, htnl0⟩, hsc0⟩, hdesc0⟩ := hwf
  have htyl' : ∀ c ∈ commitTypeName p.type, isLowerAZ c = true := by
    intro c hc
    exact List.all_eq_true.mp htyl0 c hc
  have htne : p.title ≠ [] := by
    cases ht : p.title with
    | nil => rw [ht] at hthead0; exact Bool.noConfusion hthead0
    | cons a t => simp
  have hthead : ∀ c, p.title.head? = some c → jsSpace c = false := by
    intro c hc
    cases ht : p.title with
    | nil => rw [ht] at hc; cases hc
    | cons a t =>
      rw [ht] at hc hthead0
      rw [List.head?_cons] at hc
      rw [← Option.some.inj hc]
      simpa using hthead0
  have hterm : p.title.any lineTerm = false := by
    rw [Bool.not_eq_true'] at htnl0
    exact htnl0
  have htnl : '\n' ∉ p.title := by
    intro hm
    have hany : p.title.any lineTerm = true :=
      List.any_eq_true.mpr ⟨'\n', hm, by decide⟩
    rw [hterm] at hany
    exact Bool.noConfusion hany
  have hsc : ∀ s, p.scope = some s → s ≠ [] ∧ ')' ∉ s ∧ '\n' ∉ s := by
    intro s hs
    rw [hs] at hsc0
    simp only [Bool.and_eq_true, Bool.not_eq_true'] at hsc0
    obtain ⟨⟨hse, hsp⟩, hsn⟩ := hsc0
    exact ⟨fun hnil => by rw [hnil] at hse; exact Bool.noConfusion hse,
      not_mem_of_contains_eq_false hsp, not_mem_of_contains_eq_false hsn⟩
  have hdesc : ∀ d, p.description = some d → d ≠ [] := by
    intro d hdd
    rw [hdd] at hdesc0
    intro hnil
    rw [hnil] at hdesc0
    exact Bool.noConfusion hdesc0
  have hformat : formatCommitMessage p = formatBody p := by
    rw [formatCommitMessage, hbb]
    exact if_neg (by simp)
  have hflnl : '\n' ∉ formatFirstLine p :=
    formatFirstLine_no_newline p htnl (fun s hs => ⟨(hsc s hs).1, (hsc s hs).2.2⟩)
  have hme : matchEmoji (formatFirstLine p) =
      some ((COMMIT_TYPES p.type).emoji, [' '], headerTail p) := by
    rw [formatFirstLine_shape p (fun s hs => (hsc s hs).1)]
    exact matchEmoji_of_token _ _ (emoji_wf p.type).1 (emoji_wf p.type).2
      (commitTypeName_head_nonspace p htyl')
  have hmh : matchTypeHeader (headerTail p) =
      some (commitTypeName p.type, p.scope, p.breaking, p.title) :=
    matchTypeHeader_build (commitTypeName p.type) p.scope p.breaking p.title
      (commitTypeName_ne_nil p.type) htyl'
      (fun s hs => ⟨(hsc s hs).1, (hsc s hs).2.1⟩) htne hthead hterm
  rcases hd : p.description with _ | d
  · have hbody : formatBody p = formatFirstLine p := by rw [formatBody, hd]
    rw [hformat, hbody, parseCommitMessage]
    dsimp only
    rw [splitOnChar_of_not_mem '\n' _ hflnl]
    simp only [List.headD_cons]
    rw [hme]
    dsimp only
    rw [hmh]
    dsimp only
    rw [if_neg (by simp)]
    rfl
  · have hdne : d ≠ [] := hdesc d hd
    have hbody : formatBody p = formatFirstLine p ++ '\n' :: '\n' :: d := by
      rw [formatBody, hd]
      exact if_neg hdne
    have hsplit2 : splitOnChar '\n' ('\n' :: d) = [] :: splitOnChar '\n' d := by
      rw [splitOnChar]
      exact if_pos rfl
    rw [hformat, hbody, parseCommitMessage]
    dsimp only
    rw [splitOnChar_append_sep '\n' _ _ hflnl, hsplit2]
    simp only [List.headD_cons]
    rw [hme]
    dsimp only
    rw [hmh]
    dsimp only
    have hlpos : 0 < (splitOnChar '\n' d).length :=
      List.length_pos.mpr (splitOnChar_ne_nil '\n' d)
    rw [if_pos (by simp; omega)]
    have hdrop : (formatFirstLine p :: [] :: splitOnChar '\n' d).drop 2 =
        splitOnChar '\n' d := rfl
    rw [hdrop, joinSep_splitOnChar]
    rfl

/-- C2 witness: a well-formed non-breaking commit with scope and
description round-trips through `format` and `parse`. -/
theorem parse_format_roundtrip_witness :
    parseCommitMessage (formatCommitMessage
        ⟨.feat, some "auth".data, "add login".data, some "works fine".data, false⟩) =
      some ⟨"feat".data, some "auth".data, "add login".data,
        some "works fine".data, false⟩ :=
  (parse_format_roundtrip
    ⟨.feat, some "auth".data, "add login".data, some "works fine".data, false⟩
    (by decide) (by decide)).trans (by decide)

/-- C3: `format` appends the blank-line `BREAKING CHANGE: ` block exactly
when `breaking` is set, a non-empty description is present and the
description does not already contain the marker text; in particular no
block is appended when `breaking` is true but the description is absent. -/
theorem format_breaking_block_iff (p : CommitParams) :
    (formatCommitMessage p = formatBody p ++ breakingMarker ↔ breakingBlockCond p = true) ∧
    (p.description = none → formatCommitMessage p = formatBody p) := by
  constructor
  · constructor
    · intro h
      by_contra hc
      rw [Bool.not_eq_true] at hc
      rw [formatCommitMessage, hc, if_neg (by simp)] at h
      have hlen := congrArg List.length h
      rw [List.length_append] at hlen
      simp [breakingMarker] at hlen
    · intro h
      rw [formatCommitMessage, if_pos h]
  · intro hd
    have hc : breakingBlockCond p = false := by
      rw [breakingBlockCond, hd]
      simp
    rw [formatCommitMessage, hc, if_neg (by simp)]

/-- C3 witness: with `breaking` set but no description, the formatted
message carries no breaking-change block. -/
theorem format_breaking_block_iff_witness :
    formatCommitMessage ⟨.fix, none, "handle overflow".data, none, true⟩ =
      formatBody ⟨.fix, none, "handle overflow".data, none, true⟩ :=
  (format_breaking_block_iff ⟨.fix, none, "handle overflow".data, none, true⟩).2 rfl

/-- C4 counterexample: on a first line whose emoji token is followed by two
spaces, `parse` succeeds (it skips the whole whitespace run) while
`validate` reports the structural `Invalid commit format` issue (it skips
exactly one character), refuting the claimed equivalence. -/
theorem parse_validate_structural_mismatch :
    (parseCommitMessage "✨  feat: hi".data).isSome = true ∧
    (validateCommitMessage "✨  feat: hi".data).issues = [formatIssueStr] := by
  decide

/-- C4 amended: `parse` reapplies the two regexes of `validate`, but hands
the header regex the text after the whole whitespace run, while `validate`
hands it the text after exactly one character; `parse` returns `none` iff
either of its two regex applications fails, and this coincides with
`validate` reporting one of the two structural issues provided the message
is not empty or whitespace-only and the whitespace run after the leading
token of the first line (when there is one) is a single character. -/
theorem parse_none_iff_structural_issue (m : Str)
    (h1 : (jsTrim m).isEmpty = false) (h2 : singleSepOK m = true) :
    parseCommitMessage m = none ↔
      emojiIssueStr ∈ (validateCommitMessage m).issues ∨
      formatIssueStr ∈ (validateCommitMessage m).issues := by
  have hm : ¬(m = [] ∨ jsTrim m = []) := by
    rintro (hm | hm)
    · rw [hm] at h1
      exact Bool.noConfusion h1
    · rw [hm] at h1
      exact Bool.noConfusion h1
  rw [validateCommitMessage, if_neg hm, parseCommitMessage]
  dsimp only
  cases he : matchEmoji ((splitOnChar '\n' m).headD []) with
  | none =>
    simp [emojiIssueStr]
  | some trip =>
    obtain ⟨tok, ws, rest⟩ := trip
    have hws1 : ws.length = 1 := by
      simp only [singleSepOK, he, beq_iff_eq] at h2
      exact h2
    obtain ⟨htok, hwse, hrest⟩ := matchEmoji_inv he
    have hresteq : ((splitOnChar '\n' m).headD []).drop (tok.length + 1) = rest := by
      rw [hrest, hws1]
    dsimp only
    rw [hresteq]
    cases ht : matchTypeHeader rest with
    | none =>
      simp [formatIssueStr]
    | some quad =>
      obtain ⟨ty, sc, br, title⟩ := quad
      dsimp only
      constructor
      · intro hcontra
        exact absurd hcontra (by simp)
      · intro hor
        exfalso
        have htne := matchTypeHeader_title_ne_nil ht
        have hti : ¬(title.length = 0) := fun h0 => htne (List.length_eq_zero.mp h0)
        rw [if_neg hti, List.append_nil] at hor
        rcases hor with hor | hor
        · revert hor
          split
          · intro hor
            rw [List.mem_singleton] at hor
            exact absurd hor (ne_of_head rfl rfl (by decide))
          · split
            · intro hor
              rw [List.mem_singleton] at hor
              exact absurd hor (ne_of_head rfl rfl (by decide))
            · exact List.not_mem_nil _
        · revert hor
          split
          · intro hor
            rw [List.mem_singleton] at hor
            exact absurd hor (fun h => invalid_type_ne_format _ h.symm)
          · split
            · intro hor
              rw [List.mem_singleton] at hor
              exact absurd hor (ne_of_head rfl rfl (by decide))
            · exact List.not_mem_nil _

/-- C4 witness: on a message with no emoji separator at all, `parse`
returns `none` and `validate` reports the missing-emoji issue. -/
theorem parse_none_iff_structural_issue_witness :
    parseCommitMessage "abc".data = none ↔
      emojiIssueStr ∈ (validateCommitMessage "abc".data).issues ∨
      formatIssueStr ∈ (validateCommitMessage "abc".data).issues :=
  parse_none_iff_structural_issue "abc".data (by decide) (by decide)

/-- C5 counterexample: `requirements.txt` is one of the dependency/build
manifest names, yet a change-set containing only it is classified `docs`
with high confidence — the all-documentation rule fires first because of
the `.txt` extension — not `deps` or `build` as the claim states. -/
theorem manifest_requirements_txt_classified_docs :
    ["requirements.txt".data].any isBuildFile = true ∧
    suggestCommitType ⟨0, 0, ["requirements.txt".data]⟩ =
      .ok ⟨.docs, (COMMIT_TYPES .docs).emoji,
        "All changes are to documentation files".data, .high⟩ := by
  decide

/-- C5 amended: when some file matches a manifest name and none of the
earlier all-files rules (documentation, tests, CI) fires, the classifier
returns `deps` with high confidence if some manifest file name contains
`lock` or `package.json` (case-insensitively), and otherwise `build` with
high confidence. -/
theorem classify_manifest_rule (s : DiffStats)
    (hb : s.files.any isBuildFile = true)
    (hd : allMatchRule isDocFile s.files = false)
    (ht : allMatchRule isTestFile s.files = false)
    (hc : allMatchRule isCIFile s.files = false) :
    suggestCommitType s =
      .ok (if (s.files.filter isBuildFile).any isDepsFile then
        ⟨.deps, (COMMIT_TYPES .deps).emoji,
          "Changes to dependency files detected".data, .high⟩
      else
        ⟨.build, (COMMIT_TYPES .build).emoji,
          "Changes to build configuration detected".data, .high⟩) := by
  obtain ⟨x, hx, hpx⟩ := List.any_eq_true.mp hb
  have hne : ¬(s.files.length = 0) := by
    intro h0
    rw [List.length_eq_zero] at h0
    exact absurd (h0 ▸ hx) (List.not_mem_nil x)
  have hpos : 0 < (s.files.filter isBuildFile).length :=
    List.length_pos.mpr (List.ne_nil_of_mem (List.mem_filter.mpr ⟨hx, hpx⟩))
  rw [suggestCommitType, if_neg hne, if_neg (by simp [hd]), if_neg (by simp [ht]),
    if_neg (by simp [hc]), if_pos hpos]
  split <;> rfl

/-- C5 witness: a change-set containing only `Cargo.toml` is classified
`build` with high confidence. -/
theorem classify_manifest_rule_witness :
    suggestCommitType ⟨0, 0, ["Cargo.toml".data]⟩ =
      .ok ⟨.build, (COMMIT_TYPES .build).emoji,
        "Changes to build configuration detected".data, .high⟩ :=
  (classify_manifest_rule ⟨0, 0, ["Cargo.toml".data]⟩
    (by decide) (by decide) (by decide) (by decide)).trans (by decide)

theorem suggest_isOk_of_ne_nil (s : DiffStats) (h : ¬s.files.length = 0) :
    (suggestCommitType s).isOk = true := by
  have hok : ∀ r : SuggestionResult, (Except.ok (ε := GitError) r).isOk = true :=
    fun _ => rfl
  rw [suggestCommitType, if_neg h]
  simp only [apply_ite Except.isOk, hok, ite_self]

theorem suggest_ne_error_of_ne_nil (s : DiffStats) (h : ¬s.files.length = 0) :
    ¬suggestCommitType s = .error .noStagedChanges := by
  rw [suggestCommitType, if_neg h]
  simp only [apply_ite (fun x => x = Except.error GitError.noStagedChanges)]
  simp [ite_self]

theorem wrapStep_mem (width : Nat) (words0 : List Str) :
    ∀ (ws lines : List Str) (cur : Str),
      (∀ x ∈ ws, x ∈ words0) →
      (∀ l ∈ lines, l.length ≤ width ∨ l ∈ words0) →
      (cur.length ≤ width ∨ cur ∈ words0) →
      ∀ l ∈ wrapStep width ws lines cur, l.length ≤ width ∨ l ∈ words0 := by
  intro ws
  induction ws with
  | nil =>
    intro lines cur _ hlines hcur l hl
    rw [wrapStep] at hl
    split at hl
    · rcases List.mem_append.mp hl with h | h
      · exact hlines l h
      · rw [List.mem_singleton.mp h]
        exact hcur
    · exact hlines l hl
  | cons w ws ih =>
    intro lines cur hws hlines hcur l hl
    rw [wrapStep] at hl
    split at hl
    · rename_i hfit
      refine ih lines _ (fun x hx => hws x (List.mem_cons_of_mem w hx)) hlines ?_ l hl
      left
      rw [List.length_append]
      split
      · rw [List.length_cons]
        omega
      · omega
    · rename_i hnofit
      refine ih _ w (fun x hx => hws x (List.mem_cons_of_mem w hx)) ?_ ?_ l hl
      · split
        · intro l2 hl2
          rcases List.mem_append.mp hl2 with h | h
          · exact hlines l2 h
          · rw [List.mem_singleton.mp h]
            exact hcur
        · exact hlines
      · right
        exact hws w (List.mem_cons_self w ws)

theorem wrapStep_no_sep (width : Nat) (sep : Char) (hsep : sep ≠ ' ') :
    ∀ (ws lines : List Str) (cur : Str),
      (∀ x ∈ ws, sep ∉ x) →
      (∀ l ∈ lines, sep ∉ l) →
      sep ∉ cur →
      ∀ l ∈ wrapStep width ws lines cur, sep ∉ l := by
  intro ws
  induction ws with
  | nil =>
    intro lines cur _ hlines hcur l hl
    rw [wrapStep] at hl
    split at hl
    · rcases List.mem_append.mp hl with h | h
      · exact hlines l h
      · rw [List.mem_singleton.mp h]
        exact hcur
    · exact hlines l hl
  | cons w ws ih =>
    intro lines cur hws hlines hcur l hl
    rw [wrapStep] at hl
    split at hl
    · rename_i hfit
      refine ih lines _ (fun x hx => hws x (List.mem_cons_of_mem w hx)) hlines ?_ l hl
      intro hmem
      rcases List.mem_append.mp hmem with h | h
      · exact hcur h
      · have hw : sep ∉ w := hws w (List.mem_cons_self w ws)
        revert h
        split
        · intro h
          rcases List.mem_cons.mp h with h | h
          · exact hsep h
          · exact hw h
        · exact hw
    · rename_i hnofit
      refine ih _ w (fun x hx => hws x (List.mem_cons_of_mem w hx)) ?_
        (hws w (List.mem_cons_self w ws)) l hl
      split
      · intro l2 hl2
        rcases List.mem_append.mp hl2 with h | h
        · exact hlines l2 h
        · rw [List.mem_singleton.mp h]
          exact hcur
      · exact hlines

/-- C6 counterexample: wrapping a text that contains a newline inside a
word can emit an output line that is longer than the width yet is not a
single word of the text — the word `abc\ndef` is kept whole, but the
newline inside it makes the joined output contain the line `abc` of
length 3 > 2, which is not one of the text's words. -/
theorem wrap_newline_line_not_word :
    "abc".data ∈ splitOnChar '\n' (wrapText "abc\ndef".data 2) ∧
    2 < "abc".data.length ∧
    "abc".data ∉ splitOnChar ' ' "abc\ndef".data := by
  decide

/-- C6 amended: for a text that contains no newline character, every line
of `wrap(text, w)` has length at most `w`, except lines that consist of a
single (unsplit) word of the text whose own length exceeds `w`. -/
theorem wrap_lines_bounded (text : Str) (w : Nat) (hw : 0 < w)
    (hnl : '\n' ∉ text) :
    ∀ l ∈ splitOnChar '\n' (wrapText text w),
      l.length ≤ w ∨ (w < l.length ∧ l ∈ splitOnChar ' ' text) := by
  intro l hl
  rw [wrapText] at hl
  have hwordsnl : ∀ x ∈ splitOnChar ' ' text, '\n' ∉ x :=
    fun x hx hmem => hnl (mem_of_mem_splitOnChar ' ' text x '\n' hx hmem)
  have hspec : ∀ l2 ∈ wrapStep w (splitOnChar ' ' text) [] [],
      l2.length ≤ w ∨ l2 ∈ splitOnChar ' ' text :=
    wrapStep_mem w (splitOnChar ' ' text) (splitOnChar ' ' text) [] []
      (fun x hx => hx) (fun l2 hl2 => absurd hl2 (List.not_mem_nil l2))
      (Or.inl (Nat.zero_le w))
  have hnosep : ∀ l2 ∈ wrapStep w (splitOnChar ' ' text) [] [], '\n' ∉ l2 :=
    wrapStep_no_sep w '\n' (by decide) (splitOnChar ' ' text) [] []
      hwordsnl (fun l2 hl2 => absurd hl2 (List.not_mem_nil l2))
      (List.not_mem_nil '\n')
  cases hLe : wrapStep w (splitOnChar ' ' text) [] [] with
  | nil =>
    rw [hLe] at hl
    have hl2 : l ∈ ([[]] : List Str) := hl
    rw [List.mem_singleton.mp hl2]
    exact Or.inl (Nat.zero_le w)
  | cons a as =>
    rw [hLe, splitOnChar_joinSep '\n' (a :: as)
      (fun l2 hl2 => hnosep l2 (hLe ▸ hl2)) (by simp)] at hl
    rcases hspec l (hLe ▸ hl) with h | h
    · exact Or.inl h
    · by_cases hlw : l.length ≤ w
      · exact Or.inl hlw
      · exact Or.inr ⟨by omega, h⟩

/-- C6 witness: wrapping a two-word text at width 5 yields the line
`hello`, within the bound. -/
theorem wrap_lines_bounded_witness :
    "hello".data.length ≤ 5 ∨
      (5 < "hello".data.length ∧
        "hello".data ∈ splitOnChar ' ' "hello world".data) :=
  wrap_lines_bounded "hello world".data 5 (by decide) (by decide)
    "hello".data (by decide)

/-- C7: the classifier is invariant under reordering of the file list —
every rule depends on the files only through filter lengths, the total
length and existential scans, all of which are permutation-invariant, and
the volume heuristics only read the line counts. -/
theorem classify_perm_invariant (s : DiffStats) (f2 : List Str)
    (hp : s.files.Perm f2) :
    suggestCommitType s = suggestCommitType ⟨s.additions, s.deletions, f2⟩ := by
  obtain ⟨a, d, f1⟩ := s
  simp only at hp
  have hlen : f1.length = f2.length := hp.length_eq
  have hdoc : (f1.filter isDocFile).length = (f2.filter isDocFile).length :=
    (hp.filter isDocFile).length_eq
  have htest : (f1.filter isTestFile).length = (f2.filter isTestFile).length :=
    (hp.filter isTestFile).length_eq
  have hci : (f1.filter isCIFile).length = (f2.filter isCIFile).length :=
    (hp.filter isCIFile).length_eq
  have hcfg : (f1.filter isConfigFile).length = (f2.filter isConfigFile).length :=
    (hp.filter isConfigFile).length_eq
  have hbuild : (f1.filter isBuildFile).length = (f2.filter isBuildFile).length :=
    (hp.filter isBuildFile).length_eq
  have hdeps : (f1.filter isBuildFile).any isDepsFile =
      (f2.filter isBuildFile).any isDepsFile :=
    perm_any isDepsFile (hp.filter isBuildFile)
  simp only [suggestCommitType, allMatchRule, hlen, hdoc, htest, hci, hcfg,
    hbuild, hdeps]

/-- C7 witness: swapping two files leaves the suggestion unchanged. -/
theorem classify_perm_invariant_witness :
    suggestCommitType ⟨1, 2, ["a.md".data, "b.md".data]⟩ =
      suggestCommitType ⟨1, 2, ["b.md".data, "a.md".data]⟩ :=
  classify_perm_invariant ⟨1, 2, ["a.md".data, "b.md".data]⟩
    ["b.md".data, "a.md".data] (List.Perm.swap "b.md".data "a.md".data [])

/-- C8: the classifier fails with `NoStagedChanges` exactly when the file
list is empty, and succeeds with a suggestion exactly when it is not. -/
theorem classify_no_staged_changes_iff (s : DiffStats) :
    (suggestCommitType s = .error .noStagedChanges ↔ s.files = []) ∧
    ((suggestCommitType s).isOk = true ↔ s.files ≠ []) := by
  by_cases h : s.files.length = 0
  · have hnil : s.files = [] := List.length_eq_zero.mp h
    rw [suggestCommitType, if_pos h]
    refine ⟨⟨fun _ => hnil, fun _ => rfl⟩, ⟨fun hh => ?_, fun hne => absurd hnil hne⟩⟩
    exact Bool.noConfusion hh
  · have hne : s.files ≠ [] := fun hh => h (by rw [hh]; rfl)
    exact ⟨⟨fun heq => absurd heq (suggest_ne_error_of_ne_nil s h),
        fun hh => absurd hh hne⟩,
      ⟨fun _ => hne, fun _ => suggest_isOk_of_ne_nil s h⟩⟩

/-- C8 witness: the empty change-set fails with `NoStagedChanges`. -/
theorem classify_no_staged_changes_iff_witness :
    suggestCommitType ⟨0, 0, []⟩ = .error .noStagedChanges :=
  (classify_no_staged_changes_iff ⟨0, 0, []⟩).1.mpr rfl

/-- C9: the commit operation checks staged changes first (failing with
`NoStagedChanges`), then formats, then validates (failing with
`InvalidMessage` carrying the full issue list); only when validation
passes is the collaborator's commit invoked — the invocation trace is
empty on every failure — and the success payload carries the identifier
returned by the collaborator together with the validation warnings. -/
theorem commit_pipeline_order (env : GitEnv) (p : CommitParams) :
    (env.hasStagedChanges = false →
      handleCommit env p = (.error .noStagedChanges, [])) ∧
    (env.hasStagedChanges = true →
      (validateCommitMessage (formatCommitMessage p)).valid = false →
      handleCommit env p = (.error (.invalidMessage
        (validateCommitMessage (formatCommitMessage p)).issues), [])) ∧
    (env.hasStagedChanges = true →
      (validateCommitMessage (formatCommitMessage p)).valid = true →
      handleCommit env p = (.ok ⟨env.createCommit (formatCommitMessage p),
        formatCommitMessage p,
        (validateCommitMessage (formatCommitMessage p)).warnings⟩,
        [formatCommitMessage p])) := by
  refine ⟨fun h => ?_, fun h hv => ?_, fun h hv => ?_⟩
  · simp [handleCommit, h]
  · simp [handleCommit, h, hv]
  · simp [handleCommit, h, hv]

/-- C9 witness: with staged changes and a valid message, the commit is
created on the formatted message and the hash is returned. -/
theorem commit_pipeline_order_witness :
    handleCommit ⟨true, fun _ => "abc123".data⟩
        ⟨.feat, none, "add feature".data, none, false⟩ =
      (.ok ⟨"abc123".data,
        formatCommitMessage ⟨.feat, none, "add feature".data, none, false⟩, none⟩,
        [formatCommitMessage ⟨.feat, none, "add feature".data, none, false⟩]) :=
  ((commit_pipeline_order ⟨true, fun _ => "abc123".data⟩
    ⟨.feat, none, "add feature".data, none, false⟩).2.2 rfl (by decide)).trans (by decide)

/-- C10: the issue `Title cannot be empty` is unreachable — whenever the
header regex matches, its title capture `(.+)` is non-empty, so the
validator never emits this issue, on any input message. -/
theorem title_empty_issue_unreachable (m : Str) :
    "Title cannot be empty".data ∉ (validateCommitMessage m).issues := by
  rw [validateCommitMessage]
  dsimp only
  split
  · intro hmem
    rw [List.mem_singleton] at hmem
    exact absurd hmem (by decide)
  · split
    · intro hmem
      rw [List.mem_singleton] at hmem
      exact absurd hmem (by decide)
    · split
      · intro hmem
        rw [List.mem_singleton] at hmem
        exact absurd hmem (by decide)
      · rename_i hne e ws rest hemoji ty sc br title hheader
        have htne : title ≠ [] := matchTypeHeader_title_ne_nil hheader
        have hlen : ¬(title.length = 0) := fun h0 => htne (List.length_eq_zero.mp h0)
        simp only [if_neg hlen, List.append_nil]
        split
        · intro hmem
          rw [List.mem_singleton] at hmem
          exact absurd hmem (ne_of_head rfl rfl (by decide))
        · split
          · intro hmem
            rw [List.mem_singleton] at hmem
            exact absurd hmem (ne_of_head rfl rfl (by decide))
          · exact List.not_mem_nil _

end Gitmoji
